import Mathlib

/-!
Verification of the core algorithmic logic of the thesis plotting scripts:
the Pareto-frontier extractor (`pareto_frontier.py`), the normalization
cores of `adj_space_plot.py` and `relabelling.py`, and the ratio label
helper of `config.py`.

Numbers are modelled as rationals (the scripts manipulate Python ints and
finite floats; the claims under scrutiny all restrict to finite, non-NaN
values, where field arithmetic is the intended semantics).  Python
exceptions are modelled with `Except`, `float('inf')` with `WithTop ℚ`,
and the NaN produced by the relabelling script's zero-baseline guard with
`Option ℚ` (`none` = NaN).  Dictionaries are modelled as association
lists looked up with `List.lookup`.
-/

namespace ThesisScripts

/-! ### Pareto frontier (`src/thesis/scripts/pareto_frontier.py`)

The source:
```
def pareto_frontier(points):
    sorted_points = sorted(points, key=lambda p: (p[0], p[1]))
    pareto_front = []
    min_y = float('inf')
    for x, y in sorted_points:
        if y < min_y:
            pareto_front.append((x, y))
            min_y = y
    return pareto_front
```
`sorted` with key `(p[0], p[1])` sorts by the lexicographic order on the
pair; we model it with Mathlib's (stable) insertion sort under that
order. -/

/-- The sort key order used by `sorted(points, key=lambda p: (p[0], p[1]))`:
lexicographic comparison of the pair. -/
def lexLe (p q : ℚ × ℚ) : Prop :=
  p.1 < q.1 ∨ (p.1 = q.1 ∧ p.2 ≤ q.2)

instance : DecidableRel lexLe :=
  fun p q => inferInstanceAs (Decidable (p.1 < q.1 ∨ (p.1 = q.1 ∧ p.2 ≤ q.2)))

instance : IsTotal (ℚ × ℚ) lexLe := by
  constructor
  intro p q
  rcases lt_trichotomy p.1 q.1 with h | h | h
  · exact Or.inl (Or.inl h)
  · rcases le_total p.2 q.2 with h2 | h2
    · exact Or.inl (Or.inr ⟨h, h2⟩)
    · exact Or.inr (Or.inr ⟨h.symm, h2⟩)
  · exact Or.inr (Or.inl h)

instance : IsTrans (ℚ × ℚ) lexLe := by
  constructor
  intro a b c hab hbc
  rcases hab with h1 | ⟨h1, h1y⟩
  · rcases hbc with h2 | ⟨h2, _⟩
    · exact Or.inl (h1.trans h2)
    · exact Or.inl (h2 ▸ h1)
  · rcases hbc with h2 | ⟨h2, h2y⟩
    · exact Or.inl (h1 ▸ h2)
    · exact Or.inr ⟨h1.trans h2, h1y.trans h2y⟩

/-- `sorted(points, key=lambda p: (p[0], p[1]))`. -/
def sortPoints (points : List (ℚ × ℚ)) : List (ℚ × ℚ) :=
  List.insertionSort lexLe points

/-- The scan of `pareto_frontier`: walk the sorted points keeping the
running minimum `min_y` (initially `float('inf')`, hence `WithTop ℚ`);
append a point iff its `y` is strictly below the running minimum. -/
def paretoLoop : List (ℚ × ℚ) → WithTop ℚ → List (ℚ × ℚ)
  | [], _ => []
  | p :: rest, min_y =>
    if (p.2 : WithTop ℚ) < min_y then p :: paretoLoop rest (p.2 : WithTop ℚ)
    else paretoLoop rest min_y

/-- `pareto_frontier` from `pareto_frontier.py`. -/
def pareto_frontier (points : List (ℚ × ℚ)) : List (ℚ × ℚ) :=
  paretoLoop (sortPoints points) ⊤

/-- Strict Pareto dominance under minimization on both axes:
`q` dominates `p` when `q` is no worse on both coordinates and strictly
better on at least one. -/
def dominates (q p : ℚ × ℚ) : Prop :=
  q.1 ≤ p.1 ∧ q.2 ≤ p.2 ∧ (q.1 < p.1 ∨ q.2 < p.2)

instance : DecidableRel dominates :=
  fun q p =>
    inferInstanceAs (Decidable (q.1 ≤ p.1 ∧ q.2 ≤ p.2 ∧ (q.1 < p.1 ∨ q.2 < p.2)))

example : pareto_frontier [(1, 10), (2, 5), (3, 5), (4, 1)] = [(1, 10), (2, 5), (4, 1)] := by
  decide

example : pareto_frontier [] = [] := by decide

example : pareto_frontier [(5, 5)] = [(5, 5)] := by decide

theorem not_dominates_self (p : ℚ × ℚ) : ¬ dominates p p := by
  rintro ⟨-, -, h | h⟩ <;> exact lt_irrefl _ h

theorem not_dominates_of_lexLe {a q : ℚ × ℚ} (h : lexLe a q) : ¬ dominates q a := by
  rintro ⟨hx, hy, hstrict⟩
  rcases h with h1 | ⟨h1, h2⟩
  · exact absurd (lt_of_le_of_lt hx h1) (lt_irrefl _)
  · rcases hstrict with hs | hs
    · exact absurd (h1 ▸ hs) (lt_irrefl _)
    · exact absurd (lt_of_le_of_lt h2 hs) (lt_irrefl _)

theorem paretoLoop_snd_lt {l : List (ℚ × ℚ)} {m : WithTop ℚ} {p : ℚ × ℚ}
    (hp : p ∈ paretoLoop l m) : (p.2 : WithTop ℚ) < m := by
  induction l generalizing m with
  | nil => simp [paretoLoop] at hp
  | cons a rest ih =>
    by_cases h : ((a.2 : WithTop ℚ) < m)
    · simp only [paretoLoop, if_pos h] at hp
      rcases List.mem_cons.mp hp with rfl | hp
      · exact h
      · exact lt_trans (ih hp) h
    · simp only [paretoLoop, if_neg h] at hp
      exact ih hp

theorem paretoLoop_subset {l : List (ℚ × ℚ)} {m : WithTop ℚ} {p : ℚ × ℚ}
    (hp : p ∈ paretoLoop l m) : p ∈ l := by
  induction l generalizing m with
  | nil => simp [paretoLoop] at hp
  | cons a rest ih =>
    by_cases h : ((a.2 : WithTop ℚ) < m)
    · simp only [paretoLoop, if_pos h] at hp
      rcases List.mem_cons.mp hp with rfl | hp
      · exact List.mem_cons_self _ _
      · exact List.mem_cons_of_mem a (ih hp)
    · simp only [paretoLoop, if_neg h] at hp
      exact List.mem_cons_of_mem a (ih hp)

theorem paretoLoop_sound {l : List (ℚ × ℚ)} {m : WithTop ℚ} {p : ℚ × ℚ}
    (hs : l.Pairwise lexLe) (hp : p ∈ paretoLoop l m) :
    ∀ q ∈ l, ¬ dominates q p := by
  induction l generalizing m with
  | nil => intro q hq; simp at hq
  | cons a rest ih =>
    rcases List.pairwise_cons.mp hs with ⟨ha, hrest⟩
    by_cases h : ((a.2 : WithTop ℚ) < m)
    · simp only [paretoLoop, if_pos h] at hp
      rcases List.mem_cons.mp hp with rfl | hp
      · intro q hq
        rcases List.mem_cons.mp hq with rfl | hq
        · exact not_dominates_self _
        · exact not_dominates_of_lexLe (ha q hq)
      · intro q hq
        rcases List.mem_cons.mp hq with rfl | hq
        · have h2 : p.2 < q.2 := WithTop.coe_lt_coe.mp (paretoLoop_snd_lt hp)
          rintro ⟨-, hy, -⟩
          exact absurd hy (not_le.mpr h2)
        · exact ih hrest hp q hq
    · simp only [paretoLoop, if_neg h] at hp
      intro q hq
      rcases List.mem_cons.mp hq with rfl | hq
      · have h1 : (p.2 : WithTop ℚ) < m := paretoLoop_snd_lt hp
        have h3 : p.2 < q.2 := WithTop.coe_lt_coe.mp (lt_of_lt_of_le h1 (not_lt.mp h))
        rintro ⟨-, hy, -⟩
        exact absurd hy (not_le.mpr h3)
      · exact ih hrest hp q hq

theorem paretoLoop_complete {l : List (ℚ × ℚ)} {m : WithTop ℚ} {p : ℚ × ℚ}
    (hs : l.Pairwise lexLe) (hp : p ∈ l)
    (hnd : ∀ q ∈ l, ¬ dominates q p) (hm : (p.2 : WithTop ℚ) < m) :
    p ∈ paretoLoop l m := by
  induction l generalizing m with
  | nil => simp at hp
  | cons a rest ih =>
    rcases List.pairwise_cons.mp hs with ⟨ha, hrest⟩
    rcases List.mem_cons.mp hp with rfl | hp
    · simp only [paretoLoop, if_pos hm]
      exact List.mem_cons_self _ _
    · have hnda := hnd a (List.mem_cons_self a rest)
      by_cases h : ((a.2 : WithTop ℚ) < m)
      · simp only [paretoLoop, if_pos h]
        rcases ha p hp with hx | ⟨hx, hy⟩
        · have hpy : p.2 < a.2 := by
            by_contra hge
            exact hnda ⟨le_of_lt hx, not_lt.mp hge, Or.inl hx⟩
          exact List.mem_cons_of_mem a
            (ih hrest hp (fun q hq => hnd q (List.mem_cons_of_mem a hq))
              (WithTop.coe_lt_coe.mpr hpy))
        · have hy' : p.2 ≤ a.2 := by
            by_contra hgt
            exact hnda ⟨le_of_eq hx, hy, Or.inr (not_le.mp hgt)⟩
          have hpa : p = a := Prod.ext hx.symm (le_antisymm hy' hy)
          rw [hpa]
          exact List.mem_cons_self _ _
      · simp only [paretoLoop, if_neg h]
        exact ih hrest hp (fun q hq => hnd q (List.mem_cons_of_mem a hq)) hm

theorem paretoLoop_pairwise {l : List (ℚ × ℚ)} {m : WithTop ℚ}
    (hs : l.Pairwise lexLe) :
    (paretoLoop l m).Pairwise (fun a b => a.1 < b.1 ∧ b.2 < a.2) := by
  induction l generalizing m with
  | nil => simp [paretoLoop]
  | cons a rest ih =>
    rcases List.pairwise_cons.mp hs with ⟨ha, hrest⟩
    by_cases h : ((a.2 : WithTop ℚ) < m)
    · simp only [paretoLoop, if_pos h]
      refine List.pairwise_cons.mpr ⟨?_, ih hrest⟩
      intro b hb
      have hb2 : b.2 < a.2 := WithTop.coe_lt_coe.mp (paretoLoop_snd_lt hb)
      rcases ha b (paretoLoop_subset hb) with hx | ⟨-, hy⟩
      · exact ⟨hx, hb2⟩
      · exact absurd hy (not_le.mpr hb2)
    · simp only [paretoLoop, if_neg h]
      exact ih hrest

theorem sortPoints_pairwise (points : List (ℚ × ℚ)) :
    (sortPoints points).Pairwise lexLe :=
  List.sorted_insertionSort lexLe points

theorem sortPoints_perm (points : List (ℚ × ℚ)) :
    (sortPoints points).Perm points :=
  List.perm_insertionSort lexLe points

/-- C1: every input point that is not strictly dominated by any other input
point appears in the output of `pareto_frontier`, and the output is exactly
the set of non-dominated input points (stated as a membership equivalence;
duplicates in the input collapse to one occurrence of the value). -/
theorem pareto_frontier_mem_iff (points : List (ℚ × ℚ)) (p : ℚ × ℚ) :
    p ∈ pareto_frontier points ↔ p ∈ points ∧ ∀ q ∈ points, ¬ dominates q p := by
  have hperm := sortPoints_perm points
  have hs := sortPoints_pairwise points
  constructor
  · intro hp
    have hmem : p ∈ sortPoints points := paretoLoop_subset hp
    refine ⟨hperm.mem_iff.mp hmem, ?_⟩
    intro q hq
    exact paretoLoop_sound hs hp q (hperm.mem_iff.mpr hq)
  · rintro ⟨hmem, hnd⟩
    exact paretoLoop_complete hs (hperm.mem_iff.mpr hmem)
      (fun q hq => hnd q (hperm.mem_iff.mp hq)) (WithTop.coe_lt_top p.2)

/-- C2: no returned point is strictly dominated by any point of the full
input set, and no returned point strictly dominates another returned
point. -/
theorem pareto_frontier_sound (points : List (ℚ × ℚ)) :
    (∀ p ∈ pareto_frontier points, ∀ q ∈ points, ¬ dominates q p) ∧
      (pareto_frontier points).Pairwise
        (fun a b => ¬ dominates a b ∧ ¬ dominates b a) := by
  have hperm := sortPoints_perm points
  have hs := sortPoints_pairwise points
  constructor
  · intro p hp q hq
    exact paretoLoop_sound hs hp q (hperm.mem_iff.mpr hq)
  · refine (paretoLoop_pairwise hs).imp ?_
    rintro a b ⟨hx, hy⟩
    constructor
    · rintro ⟨-, hy', -⟩
      exact absurd hy' (not_le.mpr hy)
    · rintro ⟨hx', -, -⟩
      exact absurd hx' (not_le.mpr hx)

/-- C3: the output of `pareto_frontier` is sorted ascending by x and its
sequence of y-values is strictly decreasing. -/
theorem pareto_frontier_ordered (points : List (ℚ × ℚ)) :
    (pareto_frontier points).Pairwise (fun a b => a.1 ≤ b.1 ∧ b.2 < a.2) :=
  (paretoLoop_pairwise (sortPoints_pairwise points)).imp
    (fun h => ⟨le_of_lt h.1, h.2⟩)

/-- C10: on a non-empty input, `pareto_frontier` returns a non-empty list
whose first element is an input point with minimal x coordinate, ties on x
broken by minimal y (it is always accepted because the running minimum
starts at plus infinity). -/
theorem pareto_frontier_head (points : List (ℚ × ℚ)) (hne : points ≠ []) :
    ∃ p t, pareto_frontier points = p :: t ∧ p ∈ points ∧
      ∀ q ∈ points, p.1 ≤ q.1 ∧ (p.1 = q.1 → p.2 ≤ q.2) := by
  have hperm := sortPoints_perm points
  have hs := sortPoints_pairwise points
  cases hsp : sortPoints points with
  | nil =>
    rw [hsp] at hperm
    exact absurd hperm.symm.eq_nil hne
  | cons a rest =>
    rw [hsp] at hperm hs
    refine ⟨a, paretoLoop rest (a.2 : WithTop ℚ), ?_, ?_, ?_⟩
    · rw [pareto_frontier, hsp]
      simp only [paretoLoop, if_pos (WithTop.coe_lt_top a.2)]
    · exact hperm.mem_iff.mp (List.mem_cons_self a rest)
    · intro q hq
      rcases List.mem_cons.mp (hperm.mem_iff.mpr hq) with rfl | hq'
      · exact ⟨le_refl _, fun _ => le_refl _⟩
      · rcases (List.pairwise_cons.mp hs).1 q hq' with hx | ⟨hx, hy⟩
        · exact ⟨le_of_lt hx, fun heq => absurd (heq ▸ hx) (lt_irrefl _)⟩
        · exact ⟨le_of_eq hx, fun _ => hy⟩

/-- Witness for C10 at a concrete input. -/
theorem pareto_frontier_head_witness :
    ∃ p t, pareto_frontier [(2, 3), (1, 5)] = p :: t ∧ p ∈ [((2 : ℚ), (3 : ℚ)), (1, 5)] ∧
      ∀ q ∈ [((2 : ℚ), (3 : ℚ)), (1, 5)], p.1 ≤ q.1 ∧ (p.1 = q.1 → p.2 ≤ q.2) :=
  pareto_frontier_head [(2, 3), (1, 5)] (by decide)

/-! ### Shared configuration (`src/thesis/scripts/config.py`) -/

def OUR_DATA_KEY : String := "Our"

def CSR_BASELINE_KEY : String := "CSR"

def LOGGRAPH_KEY : String := "LogGraph"

def CGRAPHINDEX_KEY : String := "CGraphIndex"

/-- `to_MB` from `config.py`: convert bytes to megabytes. -/
def to_MB (byte_val : ℚ) : ℚ := byte_val / (1024 * 1024)

/-- Round-half-to-even of a rational, the rounding used by Python's
fixed-point string formatting. -/
def roundHalfEven (q : ℚ) : ℤ :=
  if q - ⌊q⌋ < 1 / 2 then ⌊q⌋
  else if q - ⌊q⌋ > 1 / 2 then ⌊q⌋ + 1
  else if ⌊q⌋ % 2 = 0 then ⌊q⌋ else ⌊q⌋ + 1

/-- A value rendered with one decimal place, as by Python's format
specifier `.1f` (on the exact value of the number). -/
def formatOneDecimal (q : ℚ) : String :=
  let n : ℤ := roundHalfEven (q * 10)
  let m : ℕ := n.natAbs
  (if n < 0 then "-" else "") ++ toString (m / 10) ++ "." ++ toString (m % 10)

/-- `format_annotation_with_ratio` from `config.py`: return the ratio
rendered as `<value>x` when ratios are shown and the ratio differs from
`1.0`; return the empty string otherwise.  The comparison with `1.0` is
exact equality. -/
def format_annotation_with_ratio (absolute_value normalized_value : ℚ)
    (unit : String) (show_ratio : Bool) : String :=
  if show_ratio = true ∧ normalized_value ≠ 1 then formatOneDecimal normalized_value ++ "x"
  else ""

/-! ### Measurement tables

Python dictionaries of the scripts, modelled as association lists; the
scripts' dicts have unique keys but nothing below depends on that. -/

/-- One dataset's dict: series/technique name to measured value. -/
abbrev InnerDict := List (String × ℚ)

/-- A measurement table: dataset name to its series dict. -/
abbrev Table := List (String × InnerDict)

/-- Python exceptions raised by the normalization cores. -/
inductive PyErr where
  | keyError : PyErr
  | zeroDivisionError : PyErr
  | valueError (msg : String) : PyErr
deriving DecidableEq, Repr

/-- Python's `/` on numbers: raises `ZeroDivisionError` on a zero
denominator. -/
def pyDiv (a b : ℚ) : Except PyErr ℚ :=
  if b = 0 then .error .zeroDivisionError else .ok (a / b)

/-- `d.pop(key, None)`: remove a key from a dataset's dict. -/
def removeKey (key : String) (d : InnerDict) : InnerDict :=
  d.filter (fun kv => !(kv.1 == key))

/-- The `for ds_values in current_data.values(): ds_values.pop(OUR_DATA_KEY, None)`
loop of `adj_space_plot.py`, as a value-level table transformation. -/
def popOurAll (t : Table) : Table :=
  t.map (fun ds => (ds.1, removeKey OUR_DATA_KEY ds.2))

/-! ### `plot_normalized_with_annotation` (`src/thesis/scripts/adj_space_plot.py`)

Embedded is the data part of the function: the defensive copy, the
optional removal of the `Our` series, and the loop that builds
`normalized_sizes`, `absolute_sizes_MB` and the printed warnings.  The
matplotlib rendering that consumes those lists is presentation plumbing
outside the claims.  The result is the pair (warnings printed so far,
either the two row lists or the first raised exception). -/

/-- Rows produced by the adjacency-space normalization: the
`normalized_sizes` and `absolute_sizes_MB` lists of lists. -/
abbrev AdjCore := List (List ℚ) × List (List ℚ)

/-- `base_formats` of `adj_space_plot.py`. -/
def base_formats : List String := [CSR_BASELINE_KEY, LOGGRAPH_KEY, CGRAPHINDEX_KEY]

/-- `current_formats`: the base formats, plus `Our` when requested. -/
def current_formats (include_our_data : Bool) : List String :=
  if include_our_data then base_formats ++ [OUR_DATA_KEY] else base_formats

/-- The inner `for fmt in current_formats` loop: one dataset's
`temp_normalized` and `temp_absolute_MB`.  A missing format appends `0`
to both lists; a present one divides by the CSR value (raising
`ZeroDivisionError` when it is zero) and converts to MB. -/
def adjDatasetRow (d : InnerDict) (csr_size : ℚ) :
    List String → Except PyErr (List ℚ × List ℚ)
  | [] => .ok ([], [])
  | fmt :: rest =>
    match d.lookup fmt with
    | some size =>
      match pyDiv size csr_size with
      | .error e => .error e
      | .ok r =>
        match adjDatasetRow d csr_size rest with
        | .error e => .error e
        | .ok (ns, abss) => .ok (r :: ns, to_MB size :: abss)
    | none =>
      match adjDatasetRow d csr_size rest with
      | .error e => .error e
      | .ok (ns, abss) => .ok ((0 : ℚ) :: ns, (0 : ℚ) :: abss)

/-- The outer `for ds_name in datasets_list` loop.  A dataset missing from
the table raises `KeyError`; a dataset without the CSR baseline prints a
warning and is skipped (`continue`); otherwise its two rows are appended. -/
def adjLoop (t : Table) (formats : List String) :
    List String → List String × Except PyErr AdjCore
  | [] => ([], .ok ([], []))
  | ds :: rest =>
    match t.lookup ds with
    | none => ([], .error .keyError)
    | some d =>
      match d.lookup CSR_BASELINE_KEY with
      | none =>
        let (ws, res) := adjLoop t formats rest
        (ds :: ws, res)
      | some csr_size =>
        match adjDatasetRow d csr_size formats with
        | .error e => ([], .error e)
        | .ok (ns, abss) =>
          let (ws, res) := adjLoop t formats rest
          (ws,
            match res with
            | .error e => .error e
            | .ok (nss, absss) => .ok (ns :: nss, abss :: absss))

/-- The table the loop actually reads: a (deep) copy of the input, with
the `Our` series removed when `include_our_data` is false. -/
def curTable (data_to_plot : Table) (include_our_data : Bool) : Table :=
  if include_our_data then data_to_plot else popOurAll data_to_plot

/-- The normalization core of `plot_normalized_with_annotation` from
`adj_space_plot.py`: warnings printed, and either the
(`normalized_sizes`, `absolute_sizes_MB`) row lists or the raised
exception. -/
def adj_normalize (data_to_plot : Table) (datasets_list : List String)
    (include_our_data : Bool) : List String × Except PyErr AdjCore :=
  adjLoop (curTable data_to_plot include_our_data)
    (current_formats include_our_data) datasets_list

/-! ### `plot_data_normalized_with_annotation` (`src/thesis/scripts/relabelling.py`)

Embedded is the loop building `normalized_values`, `absolute_sizes_MB`
and the printed zero-baseline warnings.  A ratio is `Option ℚ`: `none` is
the NaN the script substitutes for a zero baseline (every division by it
yields NaN again). -/

/-- Rows of the relabelling normalization: ratio rows (NaN = `none`) and
absolute MB rows. -/
abbrev RelCore := List (List (Option ℚ)) × List (List ℚ)

/-- The `for item_name in items_order` loop collecting
`current_ds_item_sizes_bytes`; a missing item raises `ValueError`. -/
def relabelRow (d : InnerDict) : List String → Except PyErr (List ℚ)
  | [] => .ok []
  | item :: rest =>
    match d.lookup item with
    | none => .error (.valueError item)
    | some s =>
      match relabelRow d rest with
      | .error e => .error e
      | .ok r => .ok (s :: r)

/-- The outer `for ds_name in datasets_order` loop of
`plot_data_normalized_with_annotation`: missing dataset raises
`KeyError`, missing baseline raises `ValueError`, a zero baseline prints
a warning and replaces the baseline by NaN before dividing. -/
def relabelLoop (data_dict : Table) (items_order : List String) (baseline : String) :
    List String → List String × Except PyErr RelCore
  | [] => ([], .ok ([], []))
  | ds :: rest =>
    match data_dict.lookup ds with
    | none => ([], .error .keyError)
    | some d =>
      match d.lookup baseline with
      | none => ([], .error (.valueError baseline))
      | some b0 =>
        let ws0 : List String := if b0 = 0 then [ds] else []
        let baseline_val : Option ℚ := if b0 = 0 then none else some b0
        match relabelRow d items_order with
        | .error e => (ws0, .error e)
        | .ok sizes =>
          let (ws, res) := relabelLoop data_dict items_order baseline rest
          (ws0 ++ ws,
            match res with
            | .error e => .error e
            | .ok (nss, absss) =>
              .ok ((sizes.map (fun s => baseline_val.map (fun b => s / b))) :: nss,
                (sizes.map to_MB) :: absss))

/-- The normalization core of `plot_data_normalized_with_annotation` from
`relabelling.py`. -/
def relabel_normalize (data_dict : Table) (datasets_order items_order : List String)
    (baseline_item_name : String) : List String × Except PyErr RelCore :=
  relabelLoop data_dict items_order baseline_item_name datasets_order

example :
    relabel_normalize [("amazon", [("CSV", 10), ("BFS", 25)])] ["amazon"] ["CSV", "BFS"] "CSV" =
      ([], .ok ([[some (10 / 10), some (25 / 10)]], [[to_MB 10, to_MB 25]])) := by
  rfl

/-! ### Characterisation of the adjacency-space normalization loop -/

/-- The dict of a dataset, read off the table (`[]` when absent). -/
def innerOf (t : Table) (ds : String) : InnerDict := (t.lookup ds).getD []

/-- The CSR baseline value of a dataset (`0` when absent). -/
def csrOf (t : Table) (ds : String) : ℚ :=
  ((innerOf t ds).lookup CSR_BASELINE_KEY).getD 0

/-- Whether a dataset carries the CSR baseline series. -/
def hasCSR (t : Table) (ds : String) : Bool :=
  ((innerOf t ds).lookup CSR_BASELINE_KEY).isSome

/-- The normalized entry the adjacency loop records for one dataset and
format: value over the CSR baseline when present, `0` when absent. -/
def adjRatioAt (t : Table) (ds fmt : String) : ℚ :=
  match (innerOf t ds).lookup fmt with
  | some size => size / csrOf t ds
  | none => 0

/-- The absolute (MB) entry the adjacency loop records for one dataset and
format. -/
def adjAbsAt (t : Table) (ds fmt : String) : ℚ :=
  match (innerOf t ds).lookup fmt with
  | some size => to_MB size
  | none => 0

/-- A dataset that is present in the table and whose CSR value, when the
CSR series exists, is non-zero (the condition under which the adjacency
loop cannot raise). -/
def dsOK (t : Table) (ds : String) : Prop :=
  ∃ d, t.lookup ds = some d ∧ ∀ v, d.lookup CSR_BASELINE_KEY = some v → v ≠ 0

/-- A dataset that is present with a non-zero CSR baseline. -/
def csrPresentOK (t : Table) (ds : String) : Prop :=
  ∃ d v, t.lookup ds = some d ∧ d.lookup CSR_BASELINE_KEY = some v ∧ v ≠ 0

theorem adjDatasetRow_spec (d : InnerDict) (csr : ℚ) (hcsr : csr ≠ 0)
    (formats : List String) :
    adjDatasetRow d csr formats =
      .ok (formats.map (fun fmt => match d.lookup fmt with | some s => s / csr | none => 0),
           formats.map (fun fmt => match d.lookup fmt with | some s => to_MB s | none => 0)) := by
  induction formats with
  | nil => rfl
  | cons fmt rest ih =>
    simp only [adjDatasetRow, List.map_cons, ih]
    cases h : d.lookup fmt with
    | none => rfl
    | some s => simp [pyDiv, hcsr]

theorem adjLoop_spec (t : Table) (formats : List String) (L : List String)
    (hL : ∀ ds ∈ L, dsOK t ds) :
    adjLoop t formats L =
      (L.filter (fun ds => !(hasCSR t ds)),
       .ok ((L.filter (fun ds => hasCSR t ds)).map (fun ds => formats.map (adjRatioAt t ds)),
            (L.filter (fun ds => hasCSR t ds)).map (fun ds => formats.map (adjAbsAt t ds)))) := by
  induction L with
  | nil => rfl
  | cons ds rest ih =>
    obtain ⟨d, hd, hv⟩ := hL ds (List.mem_cons_self _ _)
    have hrest := ih (fun x hx => hL x (List.mem_cons_of_mem _ hx))
    have hinner : innerOf t ds = d := by simp [innerOf, hd]
    simp only [adjLoop, hd, List.filter_cons]
    cases hcsr : d.lookup CSR_BASELINE_KEY with
    | none =>
      have h1 : hasCSR t ds = false := by simp [hasCSR, hinner, hcsr]
      rw [hrest]
      simp [h1]
    | some v =>
      have h1 : hasCSR t ds = true := by simp [hasCSR, hinner, hcsr]
      have hcv : csrOf t ds = v := by simp [csrOf, hinner, hcsr]
      have e1 : formats.map (adjRatioAt t ds) =
          formats.map (fun fmt => match d.lookup fmt with | some s => s / v | none => 0) := by
        apply List.map_congr_left
        intro fmt _
        rw [adjRatioAt, hinner, hcv]
      have e2 : formats.map (adjAbsAt t ds) =
          formats.map (fun fmt => match d.lookup fmt with | some s => to_MB s | none => 0) := by
        apply List.map_congr_left
        intro fmt _
        rw [adjAbsAt, hinner]
      simp [adjDatasetRow_spec d v (hv v hcsr), hrest, h1, e1, e2]

/-! ### The `Our`-filtering copy does not disturb other series -/

theorem lookup_removeKey_ne (key k : String) (h : k ≠ key) (d : InnerDict) :
    (removeKey key d).lookup k = d.lookup k := by
  induction d with
  | nil => rfl
  | cons kv rest ih =>
    simp only [removeKey, List.filter_cons] at *
    by_cases hk : kv.1 = key
    · have h2 : (k == kv.1) = false := beq_false_of_ne (fun hc => h (hc.trans hk))
      have hfk : (!(kv.1 == key)) = false := by simp [hk]
      simp [hfk, List.lookup, h2, ih]
    · have hfk : (!(kv.1 == key)) = true := by simp [hk]
      cases hkk : (k == kv.1) <;> simp [List.lookup, hfk, hkk, ih]

theorem lookup_popOurAll (t : Table) (ds : String) :
    (popOurAll t).lookup ds = (t.lookup ds).map (removeKey OUR_DATA_KEY) := by
  induction t with
  | nil => rfl
  | cons kv rest ih =>
    simp only [popOurAll, List.map_cons] at *
    cases hkk : (ds == kv.1) <;> simp [List.lookup, hkk, ih]

theorem csrPresentOK_curTable {t : Table} {ds : String} (h : csrPresentOK t ds)
    (inc : Bool) : csrPresentOK (curTable t inc) ds := by
  obtain ⟨d, v, hd, hv, hv0⟩ := h
  cases inc with
  | true => exact ⟨d, v, hd, hv, hv0⟩
  | false =>
    refine ⟨removeKey OUR_DATA_KEY d, v, ?_, ?_, hv0⟩
    · simp [curTable, lookup_popOurAll, hd]
    · rw [lookup_removeKey_ne OUR_DATA_KEY CSR_BASELINE_KEY (by decide) d]
      exact hv

theorem dsOK_of_csrPresentOK {t : Table} {ds : String} (h : csrPresentOK t ds) :
    dsOK t ds := by
  obtain ⟨d, v, hd, hv, hv0⟩ := h
  exact ⟨d, hd, fun w hw => by rw [hv] at hw; exact (Option.some.inj hw) ▸ hv0⟩

theorem hasCSR_of_csrPresentOK {t : Table} {ds : String} (h : csrPresentOK t ds) :
    hasCSR t ds = true := by
  obtain ⟨d, v, hd, hv, -⟩ := h
  simp [hasCSR, innerOf, hd, hv]

theorem csrOf_of_csrPresentOK {t : Table} {ds : String} {d : InnerDict} {v : ℚ}
    (hd : t.lookup ds = some d) (hv : d.lookup CSR_BASELINE_KEY = some v) :
    csrOf t ds = v := by
  simp [csrOf, innerOf, hd, hv]

/-! ### Characterisation of the relabelling normalization loop -/

/-- The baseline value of a dataset for the relabelling loop (`0` when
absent; only used where presence is known). -/
def bOf (t : Table) (baseline ds : String) : ℚ :=
  ((innerOf t ds).lookup baseline).getD 0

/-- The condition under which the relabelling loop raises no exception on
a dataset: the dataset, the baseline and all requested items are present. -/
def relOK (t : Table) (baseline : String) (items : List String) (ds : String) : Prop :=
  ∃ d, t.lookup ds = some d ∧ (d.lookup baseline).isSome = true ∧
    ∀ it ∈ items, (d.lookup it).isSome = true

/-- The ratio row the relabelling loop records for one dataset: all NaN
when the baseline is zero, otherwise each item's value over the baseline. -/
def relRatioRow (t : Table) (baseline : String) (items : List String) (ds : String) :
    List (Option ℚ) :=
  items.map (fun it =>
    if bOf t baseline ds = 0 then none
    else some (((innerOf t ds).lookup it).getD 0 / bOf t baseline ds))

/-- The absolute (MB) row the relabelling loop records for one dataset. -/
def relAbsRow (t : Table) (items : List String) (ds : String) : List ℚ :=
  items.map (fun it => to_MB (((innerOf t ds).lookup it).getD 0))

theorem relabelRow_spec (d : InnerDict) (items : List String)
    (h : ∀ it ∈ items, (d.lookup it).isSome = true) :
    relabelRow d items = .ok (items.map (fun it => (d.lookup it).getD 0)) := by
  induction items with
  | nil => rfl
  | cons it rest ih =>
    have h1 := h it (List.mem_cons_self _ _)
    cases hit : d.lookup it with
    | none => rw [hit] at h1; simp at h1
    | some s =>
      simp only [relabelRow, hit, List.map_cons,
        ih (fun x hx => h x (List.mem_cons_of_mem _ hx))]
      simp

theorem relabelLoop_spec (t : Table) (items : List String) (baseline : String)
    (L : List String) (hL : ∀ ds ∈ L, relOK t baseline items ds) :
    relabelLoop t items baseline L =
      (L.filter (fun ds => bOf t baseline ds == 0),
       .ok (L.map (relRatioRow t baseline items), L.map (relAbsRow t items))) := by
  induction L with
  | nil => rfl
  | cons ds rest ih =>
    obtain ⟨d, hd, hb, hit⟩ := hL ds (List.mem_cons_self _ _)
    have hrest := ih (fun x hx => hL x (List.mem_cons_of_mem _ hx))
    have hinner : innerOf t ds = d := by simp [innerOf, hd]
    cases hbv : d.lookup baseline with
    | none => rw [hbv] at hb; simp at hb
    | some b0 =>
      have hbOf : bOf t baseline ds = b0 := by simp [bOf, hinner, hbv]
      have hrow : relRatioRow t baseline items ds =
          (items.map (fun it => (d.lookup it).getD 0)).map
            (fun s => (if b0 = 0 then (none : Option ℚ) else some b0).map (fun b => s / b)) := by
        rw [relRatioRow, List.map_map]
        apply List.map_congr_left
        intro it _
        rw [hinner, hbOf]
        by_cases hz : b0 = 0 <;> simp [hz]
      have habs : relAbsRow t items ds =
          (items.map (fun it => (d.lookup it).getD 0)).map to_MB := by
        rw [relAbsRow, List.map_map]
        apply List.map_congr_left
        intro it _
        simp [hinner, Function.comp]
      simp only [relabelLoop, hd, hbv, relabelRow_spec d items hit, hrest,
        List.filter_cons, List.map_cons]
      by_cases hz : b0 = 0
      · simp [hz, hbOf, hrow, habs]
      · simp [hz, hbOf, hrow, habs]

/-- If the relabelling loop returns rows (rather than raising), every
requested dataset was present and carried the baseline item. -/
theorem relabelLoop_ok_baseline {t : Table} {items : List String} {baseline : String}
    {L : List String} {ws : List String} {core : RelCore}
    (h : relabelLoop t items baseline L = (ws, .ok core)) :
    ∀ ds ∈ L, ∃ d b, t.lookup ds = some d ∧ d.lookup baseline = some b := by
  induction L generalizing ws core with
  | nil => intro ds hds; simp at hds
  | cons a rest ih =>
    intro ds hds
    cases ha : t.lookup a with
    | none =>
      simp only [relabelLoop, ha] at h
      simp at h
    | some d =>
      cases hb : d.lookup baseline with
      | none =>
        simp only [relabelLoop, ha, hb] at h
        simp at h
      | some b0 =>
        cases hrow : relabelRow d items with
        | error e =>
          simp only [relabelLoop, ha, hb, hrow] at h
          simp at h
        | ok sizes =>
          rcases hrec : relabelLoop t items baseline rest with ⟨ws2, res⟩
          cases res with
          | error e =>
            simp only [relabelLoop, ha, hb, hrow, hrec] at h
            simp at h
          | ok c =>
            rcases List.mem_cons.mp hds with rfl | hds2
            · exact ⟨d, b0, ha, hb⟩
            · exact ih hrec ds hds2

theorem dsOK_curTable {t : Table} {ds : String} (h : dsOK t ds) (inc : Bool) :
    dsOK (curTable t inc) ds := by
  obtain ⟨d, hd, hv⟩ := h
  cases inc with
  | true => exact ⟨d, hd, hv⟩
  | false =>
    refine ⟨removeKey OUR_DATA_KEY d, ?_, ?_⟩
    · simp [curTable, lookup_popOurAll, hd]
    · intro v hw
      rw [lookup_removeKey_ne OUR_DATA_KEY CSR_BASELINE_KEY (by decide) d] at hw
      exact hv v hw

theorem current_formats_cons (inc : Bool) :
    ∃ tl, current_formats inc = CSR_BASELINE_KEY :: tl := by
  cases inc with
  | true => exact ⟨[LOGGRAPH_KEY, CGRAPHINDEX_KEY, OUR_DATA_KEY], rfl⟩
  | false => exact ⟨[LOGGRAPH_KEY, CGRAPHINDEX_KEY], rfl⟩

/-- C4: when the CSR baseline (resp. the chosen baseline item) is present
with a non-zero value in every requested dataset, both normalization cores
succeed and record ratio exactly 1 for the baseline series of every
dataset. -/
theorem baseline_self_ratio
    (data : Table) (L : List String) (inc : Bool)
    (t2 : Table) (L2 items : List String) (baseline : String)
    (h1 : ∀ ds ∈ L, csrPresentOK data ds)
    (h2 : ∀ ds ∈ L2, ∃ d v, t2.lookup ds = some d ∧ d.lookup baseline = some v ∧ v ≠ 0 ∧
        ∀ it ∈ items, (d.lookup it).isSome = true) :
    (∃ nss abss, adj_normalize data L inc = ([], .ok (nss, abss)) ∧
      nss.length = L.length ∧ ∀ row ∈ nss, row.head? = some 1) ∧
    (∃ ws nss abss, relabel_normalize t2 L2 items baseline = (ws, .ok (nss, abss)) ∧
      nss.length = L2.length ∧
      ∀ row ∈ nss, ∀ i : ℕ, items[i]? = some baseline → row[i]? = some (some 1)) := by
  constructor
  · have hOK : ∀ ds ∈ L, csrPresentOK (curTable data inc) ds :=
      fun ds hds => csrPresentOK_curTable (h1 ds hds) inc
    have hspec := adjLoop_spec (curTable data inc) (current_formats inc) L
      (fun ds hds => dsOK_of_csrPresentOK (hOK ds hds))
    have hfT : L.filter (fun ds => hasCSR (curTable data inc) ds) = L :=
      List.filter_eq_self.mpr (fun ds hds => hasCSR_of_csrPresentOK (hOK ds hds))
    have hfF : L.filter (fun ds => !(hasCSR (curTable data inc) ds)) = [] :=
      List.filter_eq_nil_iff.mpr
        (fun ds hds => by rw [hasCSR_of_csrPresentOK (hOK ds hds)]; decide)
    rw [hfT, hfF] at hspec
    refine ⟨_, _, hspec, List.length_map _ _, ?_⟩
    intro row hrow
    obtain ⟨ds, hds, rfl⟩ := List.mem_map.mp hrow
    obtain ⟨d, v, hd, hv, hv0⟩ := hOK ds hds
    obtain ⟨tl, htl⟩ := current_formats_cons inc
    rw [htl, List.map_cons, List.head?_cons]
    have : adjRatioAt (curTable data inc) ds CSR_BASELINE_KEY = 1 := by
      rw [adjRatioAt]
      simp only [innerOf, hd, Option.getD_some, hv, csrOf_of_csrPresentOK hd hv]
      exact div_self hv0
    rw [this]
  · have hrelOK : ∀ ds ∈ L2, relOK t2 baseline items ds := by
      intro ds hds
      obtain ⟨d, v, hd, hv, -, hits⟩ := h2 ds hds
      exact ⟨d, hd, by simp [hv], hits⟩
    have hspec := relabelLoop_spec t2 items baseline L2 hrelOK
    refine ⟨_, _, _, hspec, List.length_map _ _, ?_⟩
    intro row hrow i hi
    obtain ⟨ds, hds, rfl⟩ := List.mem_map.mp hrow
    obtain ⟨d, v, hd, hv, hv0, -⟩ := h2 ds hds
    have hinner : innerOf t2 ds = d := by simp [innerOf, hd]
    have hb : bOf t2 baseline ds = v := by simp [bOf, hinner, hv]
    rw [relRatioRow, List.getElem?_map, hi, Option.map_some']
    rw [hinner, hb, if_neg hv0, hv, Option.getD_some, div_self hv0]

/-- Witness for C4 at a concrete input. -/
theorem baseline_self_ratio_witness :
    ((∃ nss abss, adj_normalize [("A", [("CSR", 2)])] ["A"] false = ([], .ok (nss, abss)) ∧
        nss.length = (["A"] : List String).length ∧ ∀ row ∈ nss, row.head? = some 1) ∧
      (∃ ws nss abss,
        relabel_normalize [("B", [("CSV", 3)])] ["B"] ["CSV"] "CSV" = (ws, .ok (nss, abss)) ∧
        nss.length = (["B"] : List String).length ∧
        ∀ row ∈ nss, ∀ i : ℕ, (["CSV"] : List String)[i]? = some "CSV" →
          row[i]? = some (some 1))) :=
  baseline_self_ratio [("A", [("CSR", 2)])] ["A"] false
    [("B", [("CSV", 3)])] ["B"] ["CSV"] "CSV"
    (fun ds hds => by
      obtain rfl := List.mem_singleton.mp hds
      exact ⟨[("CSR", 2)], 2, rfl, rfl, by decide⟩)
    (fun ds hds => by
      obtain rfl := List.mem_singleton.mp hds
      exact ⟨[("CSV", 3)], 3, rfl, rfl, by decide, by decide⟩)

/-- C5 counterexample: in the graph-representation comparison path
(`adj_space_plot.py`) a zero CSR baseline raises `ZeroDivisionError`
instead of producing a NaN ratio. -/
theorem zero_baseline_adj_raises :
    adj_normalize [("A", [("CSR", 0), ("LogGraph", 5)])] ["A"] false =
      ([], .error .zeroDivisionError) := by
  rfl

/-- C5 (amended): in the relabelling-style path a zero baseline yields an
all-NaN ratio row for that dataset, raises no exception, prints a warning
naming the dataset, and every other dataset is still processed. -/
theorem zero_baseline_relabel_nan (t : Table) (L items : List String)
    (baseline ds0 : String)
    (h : ∀ ds ∈ L, relOK t baseline items ds)
    (hds : ds0 ∈ L) (hz : bOf t baseline ds0 = 0) :
    ∃ ws nss abss, relabel_normalize t L items baseline = (ws, .ok (nss, abss)) ∧
      nss.length = L.length ∧ ds0 ∈ ws ∧
      ∀ i : ℕ, L[i]? = some ds0 → nss[i]? = some (items.map (fun _ => none)) := by
  have hspec := relabelLoop_spec t items baseline L h
  refine ⟨_, _, _, hspec, List.length_map _ _, ?_, ?_⟩
  · exact List.mem_filter.mpr ⟨hds, by simp [hz]⟩
  · intro i hi
    rw [List.getElem?_map, hi, Option.map_some']
    rw [relRatioRow]
    congr 1
    apply List.map_congr_left
    intro it _
    rw [if_pos hz]

/-- Witness for the amended C5 at a concrete input. -/
theorem zero_baseline_relabel_nan_witness :
    ∃ ws nss abss,
      relabel_normalize [("A", [("CSV", 0)]), ("B", [("CSV", 2)])] ["A", "B"] ["CSV"] "CSV" =
        (ws, .ok (nss, abss)) ∧
      nss.length = (["A", "B"] : List String).length ∧ "A" ∈ ws ∧
      ∀ i : ℕ, (["A", "B"] : List String)[i]? = some "A" →
        nss[i]? = some ((["CSV"] : List String).map (fun _ => none)) :=
  zero_baseline_relabel_nan [("A", [("CSV", 0)]), ("B", [("CSV", 2)])] ["A", "B"] ["CSV"] "CSV" "A"
    (fun ds hds => by
      rcases List.mem_cons.mp hds with rfl | hds2
      · exact ⟨[("CSV", 0)], rfl, by decide, by decide⟩
      · obtain rfl := List.mem_singleton.mp hds2
        exact ⟨[("CSV", 2)], rfl, by decide, by decide⟩)
    (by decide) (by rfl)

/-- C6 counterexample: in the graph-representation path a dataset whose
CSR baseline is absent is skipped entirely (no zero-filled row is
emitted for it), with a warning; it is not zero-filled as claimed. -/
theorem missing_baseline_adj_skip_cex :
    adj_normalize [("A", [("LogGraph", 7)]), ("B", [("CSR", 4)])] ["A", "B"] false =
      (["A"], .ok ([[4 / 4, 0, 0]], [[to_MB 4, 0, 0]])) := by
  rfl

/-- C6 (amended): a missing baseline raises a hard error in the
relabelling-style path, while the graph-representation path prints a
warning for each dataset missing CSR, skips those datasets (emitting no
row for them), and keeps processing the remaining datasets. -/
theorem dual_missing_baseline_policy
    (t1 : Table) (L1 items : List String) (baseline : String)
    (t2 : Table) (L2 : List String) (inc : Bool)
    (h1 : ∃ ds ∈ L1, ∃ d, t1.lookup ds = some d ∧ d.lookup baseline = none)
    (h2 : ∀ ds ∈ L2, dsOK t2 ds) :
    (∃ e, (relabel_normalize t1 L1 items baseline).2 = .error e) ∧
    (∃ nss abss,
      adj_normalize t2 L2 inc =
        (L2.filter (fun ds => !(hasCSR (curTable t2 inc) ds)), .ok (nss, abss)) ∧
      nss.length = (L2.filter (fun ds => hasCSR (curTable t2 inc) ds)).length) := by
  constructor
  · rcases heq : relabel_normalize t1 L1 items baseline with ⟨ws, res⟩
    cases res with
    | error e => exact ⟨e, rfl⟩
    | ok c =>
      exfalso
      obtain ⟨ds, hds, d, hd, hnone⟩ := h1
      obtain ⟨d2, b, hd2, hb⟩ :=
        relabelLoop_ok_baseline (heq : relabelLoop t1 items baseline L1 = (ws, .ok c)) ds hds
      rw [hd] at hd2
      cases hd2
      rw [hnone] at hb
      cases hb
  · have hspec := adjLoop_spec (curTable t2 inc) (current_formats inc) L2
      (fun ds hds => dsOK_curTable (h2 ds hds) inc)
    exact ⟨_, _, hspec, List.length_map _ _⟩

/-- Witness for the amended C6 at concrete inputs. -/
theorem dual_missing_baseline_policy_witness :
    ((∃ e, (relabel_normalize [("A", [("BFS", 1)])] ["A"] ["BFS"] "CSV").2 = .error e) ∧
      (∃ nss abss,
        adj_normalize [("B", [("CSR", 2)])] ["B"] false =
          ((["B"] : List String).filter
            (fun ds => !(hasCSR (curTable [("B", [("CSR", 2)])] false) ds)), .ok (nss, abss)) ∧
        nss.length = ((["B"] : List String).filter
          (fun ds => hasCSR (curTable [("B", [("CSR", 2)])] false) ds)).length)) :=
  dual_missing_baseline_policy [("A", [("BFS", 1)])] ["A"] ["BFS"] "CSV"
    [("B", [("CSR", 2)])] ["B"] false
    ⟨"A", by decide, [("BFS", 1)], rfl, rfl⟩
    (fun ds hds => by
      obtain rfl := List.mem_singleton.mp hds
      exact dsOK_of_csrPresentOK ⟨[("CSR", 2)], 2, rfl, rfl, by decide⟩)

/-- C7 counterexample: a requested series absent from a dataset is
zero-filled in both the ratio and the absolute row, but no warning is
printed (the warning list stays empty; `CGraphIndex` is requested and
absent here). -/
theorem missing_series_no_warning_cex :
    adj_normalize [("A", [("CSR", 2), ("LogGraph", 6)])] ["A"] false =
      ([], .ok ([[2 / 2, 6 / 2, 0]], [[to_MB 2, to_MB 6, 0]])) := by
  rfl

/-- C7 (amended): a requested series absent from a dataset gets ratio and
absolute display value recorded as zero (the entry is not omitted: every
dataset yields full-length rows), no warning is printed for it, and all
other series and datasets are processed unaffected. -/
theorem missing_series_zero_fill (t : Table) (L : List String) (inc : Bool)
    (h : ∀ ds ∈ L, csrPresentOK t ds) :
    ∃ nss abss, adj_normalize t L inc = ([], .ok (nss, abss)) ∧
      nss.length = L.length ∧ abss.length = L.length ∧
      (∀ row ∈ nss, row.length = (current_formats inc).length) ∧
      (∀ row ∈ abss, row.length = (current_formats inc).length) ∧
      (∀ i : ℕ, ∀ ds, L[i]? = some ds →
        nss[i]? = some ((current_formats inc).map (adjRatioAt (curTable t inc) ds)) ∧
        abss[i]? = some ((current_formats inc).map (adjAbsAt (curTable t inc) ds))) ∧
      ∀ ds fmt, (innerOf (curTable t inc) ds).lookup fmt = none →
        adjRatioAt (curTable t inc) ds fmt = 0 ∧ adjAbsAt (curTable t inc) ds fmt = 0 := by
  have hOK : ∀ ds ∈ L, csrPresentOK (curTable t inc) ds :=
    fun ds hds => csrPresentOK_curTable (h ds hds) inc
  have hspec := adjLoop_spec (curTable t inc) (current_formats inc) L
    (fun ds hds => dsOK_of_csrPresentOK (hOK ds hds))
  have hfT : L.filter (fun ds => hasCSR (curTable t inc) ds) = L :=
    List.filter_eq_self.mpr (fun ds hds => hasCSR_of_csrPresentOK (hOK ds hds))
  have hfF : L.filter (fun ds => !(hasCSR (curTable t inc) ds)) = [] :=
    List.filter_eq_nil_iff.mpr
      (fun ds hds => by rw [hasCSR_of_csrPresentOK (hOK ds hds)]; decide)
  rw [hfT, hfF] at hspec
  refine ⟨_, _, hspec, List.length_map _ _, List.length_map _ _, ?_, ?_, ?_, ?_⟩
  · intro row hrow
    obtain ⟨ds, -, rfl⟩ := List.mem_map.mp hrow
    exact List.length_map _ _
  · intro row hrow
    obtain ⟨ds, -, rfl⟩ := List.mem_map.mp hrow
    exact List.length_map _ _
  · intro i ds hi
    constructor
    · rw [List.getElem?_map, hi, Option.map_some']
    · rw [List.getElem?_map, hi, Option.map_some']
  · intro ds fmt hnone
    constructor
    · rw [adjRatioAt, hnone]
    · rw [adjAbsAt, hnone]

/-- Witness for the amended C7 at a concrete input. -/
theorem missing_series_zero_fill_witness :
    ∃ nss abss,
      adj_normalize [("A", [("CSR", 2), ("LogGraph", 6)])] ["A"] false =
        ([], .ok (nss, abss)) ∧
      nss.length = (["A"] : List String).length ∧
      abss.length = (["A"] : List String).length ∧
      (∀ row ∈ nss, row.length = (current_formats false).length) ∧
      (∀ row ∈ abss, row.length = (current_formats false).length) ∧
      (∀ i : ℕ, ∀ ds, (["A"] : List String)[i]? = some ds →
        nss[i]? = some ((current_formats false).map
          (adjRatioAt (curTable [("A", [("CSR", 2), ("LogGraph", 6)])] false) ds)) ∧
        abss[i]? = some ((current_formats false).map
          (adjAbsAt (curTable [("A", [("CSR", 2), ("LogGraph", 6)])] false) ds))) ∧
      ∀ ds fmt,
        (innerOf (curTable [("A", [("CSR", 2), ("LogGraph", 6)])] false) ds).lookup fmt = none →
        adjRatioAt (curTable [("A", [("CSR", 2), ("LogGraph", 6)])] false) ds fmt = 0 ∧
        adjAbsAt (curTable [("A", [("CSR", 2), ("LogGraph", 6)])] false) ds fmt = 0 :=
  missing_series_zero_fill [("A", [("CSR", 2), ("LogGraph", 6)])] ["A"] false
    (fun ds hds => by
      obtain rfl := List.mem_singleton.mp hds
      exact ⟨[("CSR", 2), ("LogGraph", 6)], 2, rfl, rfl, by decide⟩)

/-- C8: the annotation helper returns the one-decimal ratio followed by
`x` when ratios are shown and the ratio differs from `1.0`, and the empty
string exactly when the ratio equals `1.0`; the comparison with `1.0` is
exact equality, not an epsilon test. -/
theorem format_ratio_label_spec (a r : ℚ) (u : String) :
    (format_annotation_with_ratio a r u true =
      if r = 1 then "" else formatOneDecimal r ++ "x") ∧
    (format_annotation_with_ratio a r u true = "" ↔ r = 1) ∧
    format_annotation_with_ratio a r u false = "" := by
  have hne : ∀ s : String, s ++ "x" ≠ "" := by
    intro s hc
    have h1 := congrArg String.length hc
    rw [String.length_append] at h1
    have h2 : ("x" : String).length = 1 := rfl
    have h3 : ("" : String).length = 0 := rfl
    omega
  refine ⟨?_, ?_, ?_⟩
  · by_cases h : r = 1 <;> simp [format_annotation_with_ratio, h]
  · constructor
    · intro he
      by_contra hr
      rw [format_annotation_with_ratio, if_pos ⟨rfl, hr⟩] at he
      exact hne _ he
    · intro h
      simp [format_annotation_with_ratio, h]
  · simp [format_annotation_with_ratio]

/-! ### Heap model of the defensive copy (`adj_space_plot.py`, C9)

Python dicts are mutable references.  `plot_normalized_with_annotation`
first takes `copy.deepcopy(data_to_plot)` and then, when
`include_our_data` is false, destructively `pop`s the `Our` key from each
inner dict of the copy.  To express the frame property — the caller's
table is unaffected — inner dicts live in an explicit heap addressed by
index; an outer dict maps dataset names to heap addresses.  `deepcopy`
allocates fresh addresses for the copied inner dicts; the `pop` loop
mutates only addresses of the copy. -/

/-- The heap of inner dicts: address = list index. -/
abbrev Heap := List InnerDict

/-- A dict-of-dicts value: dataset name to heap address of its inner dict. -/
abbrev OuterRef := List (String × Nat)

/-- `copy.deepcopy` on the outer dict: allocate a fresh inner dict for
each entry, copying its current contents; return the grown heap and the
copy's outer dict. -/
def deepcopyAux (h : Heap) : OuterRef → Heap × OuterRef
  | [] => (h, [])
  | kv :: rest =>
    let h2 := h ++ [h.getD kv.2 []]
    let (h3, out) := deepcopyAux h2 rest
    (h3, (kv.1, h.length) :: out)

/-- The `for ds_values in current_data.values(): ds_values.pop(OUR_DATA_KEY, None)`
loop: destructively remove a key from every inner dict reachable from an
outer dict. -/
def popKeyAll (key : String) : Heap → OuterRef → Heap
  | h, [] => h
  | h, kv :: rest => popKeyAll key (h.set kv.2 (removeKey key (h.getD kv.2 []))) rest

/-- Read a whole table out of the heap through an outer dict. -/
def readTable (h : Heap) (outer : OuterRef) : Table :=
  outer.map (fun kv => (kv.1, h.getD kv.2 []))

/-- The heap-level rendering of `plot_normalized_with_annotation`'s data
part: deep-copy the caller's table, filter `Our` out of the copy when
requested, then run the normalization loop on the table read through the
copy.  Returns the final heap together with the warnings and rows. -/
def adj_normalize_heap (h : Heap) (data_to_plot : OuterRef)
    (datasets_list : List String) (include_our_data : Bool) :
    Heap × (List String × Except PyErr AdjCore) :=
  let hc := deepcopyAux h data_to_plot
  let h2 := if include_our_data then hc.1 else popKeyAll OUR_DATA_KEY hc.1 hc.2
  (h2, adjLoop (readTable h2 hc.2) (current_formats include_our_data) datasets_list)

theorem deepcopyAux_fst_append (o : OuterRef) :
    ∀ h : Heap, ∃ ext, (deepcopyAux h o).1 = h ++ ext := by
  induction o with
  | nil => intro h; exact ⟨[], (List.append_nil h).symm⟩
  | cons kv rest ih =>
    intro h
    obtain ⟨ext, hext⟩ := ih (h ++ [h.getD kv.2 []])
    refine ⟨[h.getD kv.2 []] ++ ext, ?_⟩
    rw [deepcopyAux]
    simp only [hext, List.append_assoc]

theorem deepcopyAux_snd_ge (o : OuterRef) :
    ∀ h : Heap, ∀ kv ∈ (deepcopyAux h o).2, h.length ≤ kv.2 := by
  induction o with
  | nil => intro h kv hkv; simp [deepcopyAux] at hkv
  | cons a rest ih =>
    intro h kv hkv
    rw [deepcopyAux] at hkv
    rcases List.mem_cons.mp hkv with rfl | hkv2
    · exact le_refl _
    · have := ih (h ++ [h.getD a.2 []]) kv hkv2
      rw [List.length_append] at this
      omega

theorem getD_append_left {h : Heap} {ext : Heap} {i : ℕ} (hi : i < h.length) :
    (h ++ ext).getD i [] = h.getD i [] := by
  rw [List.getD_eq_getElem?_getD, List.getD_eq_getElem?_getD, List.getElem?_append_left hi]

theorem getD_set_ne {h : Heap} {i j : ℕ} {d : InnerDict} (hij : i ≠ j) :
    (h.set i d).getD j [] = h.getD j [] := by
  rw [List.getD_eq_getElem?_getD, List.getD_eq_getElem?_getD, List.getElem?_set_ne hij]

theorem popKeyAll_preserves (key : String) (N : ℕ) (o : OuterRef)
    (ho : ∀ kv ∈ o, N ≤ kv.2) :
    ∀ h : Heap, ∀ i : ℕ, i < N → (popKeyAll key h o).getD i [] = h.getD i [] := by
  induction o with
  | nil => intro h i _; rfl
  | cons a rest ih =>
    intro h i hi
    rw [popKeyAll]
    rw [ih (fun kv hkv => ho kv (List.mem_cons_of_mem a hkv)) _ i hi]
    have ha : N ≤ a.2 := ho a (List.mem_cons_self _ _)
    exact getD_set_ne (by omega)

/-- C9: the adjacency-space normalization never mutates the caller's
table: after the call (in either configuration, including the one that
pops the `Our` series from the defensive copy), every inner dict read
through the caller's outer dict is unchanged. -/
theorem adj_normalize_heap_frame (h : Heap) (outer : OuterRef)
    (datasets_list : List String) (inc : Bool)
    (hvalid : ∀ kv ∈ outer, kv.2 < h.length) :
    readTable (adj_normalize_heap h outer datasets_list inc).1 outer = readTable h outer := by
  obtain ⟨ext, hext⟩ := deepcopyAux_fst_append outer h
  have hpre : ∀ kv ∈ outer,
      (adj_normalize_heap h outer datasets_list inc).1.getD kv.2 [] = h.getD kv.2 [] := by
    intro kv hkv
    have hlt := hvalid kv hkv
    cases inc with
    | true =>
      show ((deepcopyAux h outer).1).getD kv.2 [] = h.getD kv.2 []
      rw [hext]
      exact getD_append_left hlt
    | false =>
      show (popKeyAll OUR_DATA_KEY (deepcopyAux h outer).1 (deepcopyAux h outer).2).getD kv.2 []
        = h.getD kv.2 []
      rw [popKeyAll_preserves OUR_DATA_KEY h.length (deepcopyAux h outer).2
        (deepcopyAux_snd_ge outer h) _ kv.2 hlt]
      rw [hext]
      exact getD_append_left hlt
  rw [readTable, readTable]
  apply List.map_congr_left
  intro kv hkv
  rw [hpre kv hkv]

/-- Witness for C9 at a concrete input. -/
theorem adj_normalize_heap_frame_witness :
    readTable
        (adj_normalize_heap [[("CSR", 1), ("Our", 2)]] [("A", 0)] ["A"] false).1
        [("A", 0)] =
      readTable [[("CSR", 1), ("Our", 2)]] [("A", 0)] :=
  adj_normalize_heap_frame [[("CSR", 1), ("Our", 2)]] [("A", 0)] ["A"] false
    (fun kv hkv => by
      obtain rfl := List.mem_singleton.mp hkv
      decide)

end ThesisScripts
